import Mathlib

/-!
Verification of the configuration-tree comparator of `pyharnessworkshop`
(`validate_workspace_configuration` and its inner `compare_values` in
`src/pyharnessworkshop/utils/misc.py`).

The Python data are YAML/JSON-like trees: dictionaries with string keys,
lists, and scalar leaves (`None`, `bool`, `int`, `str`).  We embed them as a
mutual inductive family `ConfigValue` / `ValueList` / `EntryList` so that all
operations are structurally recursive and therefore evaluable by the kernel.
`EntryList` keeps the dictionary's insertion order, exactly as Python dicts
do; a genuine Python dict never has duplicate keys, which is captured by the
well-formedness predicate `wfCV`.

Python semantics embedded here:
  * `==` (used by `!=` and by list membership `in`) is `pyEq`; it identifies
    `True` with `1` and `False` with `0`, compares lists pointwise and dicts
    as key-value sets.
  * `str(x)` (used by the f-strings building mismatch messages) is `pyStr`;
    nested containers render via `pyRepr`.  String repr always uses single
    quotes and performs no character escaping, which is faithful for every
    string free of quotes and control characters.
  * `type(x).__name__` is `typeName`.
  * `s.lower()` is `pyLower` (ASCII case folding suffices here).
-/

mutual

inductive ConfigValue where
  | null
  | bool (b : Bool)
  | int (n : Int)
  | str (s : String)
  | seq (items : ValueList)
  | map (entries : EntryList)

inductive ValueList where
  | nil
  | cons (head : ConfigValue) (tail : ValueList)

inductive EntryList where
  | nil
  | cons (key : String) (value : ConfigValue) (tail : EntryList)

end

/-- One discrepancy record, as built by `compare_values`: a Python dict
`{"path": ..., "expected": ..., "actual": ..., "message": ...}`.  The code
stores Python `None` in the `actual` field when the expected path is absent;
since `None` is itself the null `ConfigValue`, absence is represented by
`ConfigValue.null`, exactly as in the Python runtime value. -/
structure Mismatch where
  path : String
  expected : ConfigValue
  actual : ConfigValue
  message : String

/-- Python `type(x).__name__` for the embedded values. -/
def typeName : ConfigValue → String
  | ConfigValue.null => "NoneType"
  | ConfigValue.bool _ => "bool"
  | ConfigValue.int _ => "int"
  | ConfigValue.str _ => "str"
  | ConfigValue.seq _ => "list"
  | ConfigValue.map _ => "dict"

/-- Python `s.lower()` (ASCII folding). -/
def pyLower (s : String) : String := String.mk (s.data.map Char.toLower)

/-- The path extension `f"{path}.{sub_key}" if path else sub_key`. -/
def joinKey (path k : String) : String := if path = "" then k else path ++ "." ++ k

/-- Python dict lookup on an insertion-ordered entry list (first match; a
well-formed dict has no duplicate keys, so this is the unique match). -/
def dictGet : EntryList → String → Option ConfigValue
  | EntryList.nil, _ => none
  | EntryList.cons k v t, key => if k = key then some v else dictGet t key

/-- Python `key in d`. -/
def hasKey (es : EntryList) (k : String) : Bool := (dictGet es k).isSome

/-- The keys of a dict, in insertion order. -/
def keysEL : EntryList → List String
  | EntryList.nil => []
  | EntryList.cons k _ t => k :: keysEL t

/-- The entries of a dict as an ordinary list, in insertion order. -/
def entriesToList : EntryList → List (String × ConfigValue)
  | EntryList.nil => []
  | EntryList.cons k v t => (k, v) :: entriesToList t

/-- The items of a sequence as an ordinary list, in order. -/
def itemsToList : ValueList → List ConfigValue
  | ValueList.nil => []
  | ValueList.cons h t => h :: itemsToList t

/-- Python `len` of a dict. -/
def lengthEL : EntryList → Nat
  | EntryList.nil => 0
  | EntryList.cons _ _ t => lengthEL t + 1

mutual

/-- Python `repr` of an embedded value (single-quoted, unescaped strings). -/
def pyRepr : ConfigValue → String
  | ConfigValue.null => "None"
  | ConfigValue.bool b => if b then "True" else "False"
  | ConfigValue.int n => toString n
  | ConfigValue.str s => "\x27" ++ s ++ "\x27"
  | ConfigValue.seq items => "[" ++ pyReprItems items ++ "]"
  | ConfigValue.map es => "\x7b" ++ pyReprEntries es ++ "\x7d"

/-- Comma-separated reprs of list items. -/
def pyReprItems : ValueList → String
  | ValueList.nil => ""
  | ValueList.cons h ValueList.nil => pyRepr h
  | ValueList.cons h t => pyRepr h ++ ", " ++ pyReprItems t

/-- Comma-separated `key: value` reprs of dict entries. -/
def pyReprEntries : EntryList → String
  | EntryList.nil => ""
  | EntryList.cons k v EntryList.nil => "\x27" ++ k ++ "\x27: " ++ pyRepr v
  | EntryList.cons k v t => "\x27" ++ k ++ "\x27: " ++ pyRepr v ++ ", " ++ pyReprEntries t

end

/-- Python `str` of an embedded value, as interpolated by an f-string. -/
def pyStr : ConfigValue → String
  | ConfigValue.str s => s
  | v => pyRepr v

mutual

/-- Python `==` on embedded values: `None == None`; booleans are numerically
identified with `0`/`1`; lists compare pointwise; dicts compare as key-value
sets (equal lengths and every key of the left dict present in the right with
`==`-equal value). -/
def pyEq : ConfigValue → ConfigValue → Bool
  | ConfigValue.null, ConfigValue.null => true
  | ConfigValue.bool b, ConfigValue.bool c => b == c
  | ConfigValue.bool b, ConfigValue.int n => (if b then (1 : Int) else 0) == n
  | ConfigValue.int n, ConfigValue.bool b => n == (if b then (1 : Int) else 0)
  | ConfigValue.int n, ConfigValue.int m => n == m
  | ConfigValue.str s, ConfigValue.str t => s == t
  | ConfigValue.seq xs, ConfigValue.seq ys => pyEqItems xs ys
  | ConfigValue.map xs, ConfigValue.map ys => lengthEL xs == lengthEL ys && pyEqEntries xs ys
  | _, _ => false

/-- Pointwise `==` on lists (false on length mismatch). -/
def pyEqItems : ValueList → ValueList → Bool
  | ValueList.nil, ValueList.nil => true
  | ValueList.cons x xs, ValueList.cons y ys => pyEq x y && pyEqItems xs ys
  | _, _ => false

/-- Every key of the first dict is present in the second with `==`-equal
value. -/
def pyEqEntries : EntryList → EntryList → Bool
  | EntryList.nil, _ => true
  | EntryList.cons k v t, ys =>
      (match dictGet ys k with
       | some w => pyEq v w
       | none => false) && pyEqEntries t ys

end

/-- Python `item in lst` for a list: some element is `==`-equal to `item`. -/
def pyMem (item : ConfigValue) : ValueList → Bool
  | ValueList.nil => false
  | ValueList.cons h t => pyEq item h || pyMem item t

/-- The scalar (non-dict, non-list expected) branch of `compare_values`:
`if isinstance(actual, bool) and isinstance(expected, str)` coerce the
expected string with `True if expected.lower() == "true" else False` and
compare; otherwise compare `actual != expected` directly. -/
def compareScalar (path : String) (expected actual : ConfigValue) : List Mismatch :=
  match actual, expected with
  | ConfigValue.bool ab, ConfigValue.str s =>
      let expectedBool : Bool := pyLower s == "true"
      if ab != expectedBool then
        [⟨path, ConfigValue.bool expectedBool, ConfigValue.bool ab,
          "Mismatch in \x27" ++ path ++ "\x27: expected \x27" ++
            pyStr (ConfigValue.bool expectedBool) ++ "\x27, found \x27" ++
            pyStr (ConfigValue.bool ab) ++ "\x27."⟩]
      else []
  | _, _ =>
      if pyEq actual expected then []
      else
        [⟨path, expected, actual,
          "Mismatch in \x27" ++ path ++ "\x27: expected \x27" ++ pyStr expected ++
            "\x27, found \x27" ++ pyStr actual ++ "\x27."⟩]

/-- The list branch of `compare_values`: for each expected item in order, a
membership check in the actual list; a missing item is reported at the parent
path with `actual = None`. -/
def compareItems (path : String) (items aitems : ValueList) : List Mismatch :=
  match items with
  | ValueList.nil => []
  | ValueList.cons item rest =>
      (if pyMem item aitems then []
       else
         [⟨path, item, ConfigValue.null,
           "Expected list item \x27" ++ pyStr item ++ "\x27 not found in \x27" ++
             path ++ "\x27."⟩]) ++
      compareItems path rest aitems

mutual

/-- The inner `compare_values(path, expected, actual)` of
`validate_workspace_configuration`, translated clause for clause:
dictionaries recurse keywise over the expected entries, lists check expected
items for membership, everything else is handled by the scalar branch; shape
mismatches (expected dict or list, actual of another type) produce a single
mismatch at the current path holding the whole expected node and the actual
node. -/
def compareValues (path : String) (expected actual : ConfigValue) : List Mismatch :=
  match expected with
  | ConfigValue.map es =>
      match actual with
      | ConfigValue.map aes => compareEntries path es aes
      | _ =>
          [⟨path, ConfigValue.map es, actual,
            "Expected a dictionary at \x27" ++ path ++ "\x27, but found " ++
              typeName actual ++ "."⟩]
  | ConfigValue.seq items =>
      match actual with
      | ConfigValue.seq aitems => compareItems path items aitems
      | _ =>
          [⟨path, ConfigValue.seq items, actual,
            "Expected a list at \x27" ++ path ++ "\x27, but found " ++
              typeName actual ++ "."⟩]
  | _ => compareScalar path expected actual

/-- The `for sub_key, sub_expected in expected.items()` loop of the dict
branch: a missing key is reported at the extended path with `actual = None`,
a present key recurses. -/
def compareEntries (path : String) (es aes : EntryList) : List Mismatch :=
  match es with
  | EntryList.nil => []
  | EntryList.cons k v rest =>
      (let newPath := joinKey path k
       match dictGet aes k with
       | none =>
           [⟨newPath, v, ConfigValue.null,
             "Configuration key \x27" ++ newPath ++ "\x27 not found in workspace."⟩]
       | some w => compareValues newPath v w) ++
      compareEntries path rest aes

end

/-- The mismatches one expected entry `(k, v)` contributes when compared
against the actual dict `aes` (the body of the dict-branch loop). -/
def entryBlock (path : String) (aes : EntryList) (k : String) (v : ConfigValue) :
    List Mismatch :=
  match dictGet aes k with
  | none =>
      [⟨joinKey path k, v, ConfigValue.null,
        "Configuration key \x27" ++ joinKey path k ++ "\x27 not found in workspace."⟩]
  | some w => compareValues (joinKey path k) v w

/-- Top-level `validate_workspace_configuration(workspace_config,
workspace_context)`: iterate the expected context keys in order against the
actual workspace configuration. -/
def validateWorkspaceConfiguration (workspaceConfig workspaceContext : EntryList) :
    List Mismatch :=
  match workspaceContext with
  | EntryList.nil => []
  | EntryList.cons key expectedValue rest =>
      (match dictGet workspaceConfig key with
       | none =>
           [⟨key, expectedValue, ConfigValue.null,
             "Configuration \x27" ++ key ++ "\x27 not found in workspace."⟩]
       | some actualValue => compareValues key expectedValue actualValue) ++
      validateWorkspaceConfiguration workspaceConfig rest

/-- The error-explicit rendering of Python dict subscription `d[k]`, which
raises `KeyError` on a missing key. -/
def dictGetE (es : EntryList) (k : String) : Except String ConfigValue :=
  match dictGet es k with
  | some v => Except.ok v
  | none => Except.error ("KeyError: \x27" ++ k ++ "\x27")

mutual

/-- `compare_values` with every partial Python operation made error-explicit:
the dict subscription `actual[sub_key]` goes through `dictGetE` and any
`KeyError` would surface as `Except.error`.  Everything else in the function
body is total.  Used to state that the comparator never raises. -/
def compareValuesE (path : String) (expected actual : ConfigValue) :
    Except String (List Mismatch) :=
  match expected with
  | ConfigValue.map es =>
      match actual with
      | ConfigValue.map aes => compareEntriesE path es aes
      | _ =>
          Except.ok
            [⟨path, ConfigValue.map es, actual,
              "Expected a dictionary at \x27" ++ path ++ "\x27, but found " ++
                typeName actual ++ "."⟩]
  | ConfigValue.seq items =>
      match actual with
      | ConfigValue.seq aitems => Except.ok (compareItems path items aitems)
      | _ =>
          Except.ok
            [⟨path, ConfigValue.seq items, actual,
              "Expected a list at \x27" ++ path ++ "\x27, but found " ++
                typeName actual ++ "."⟩]
  | _ => Except.ok (compareScalar path expected actual)

/-- The dict-branch loop with error-explicit subscription: the guard
`if sub_key not in actual` decides between the missing-key mismatch and the
subscription `actual[sub_key]` followed by recursion. -/
def compareEntriesE (path : String) (es aes : EntryList) :
    Except String (List Mismatch) :=
  match es with
  | EntryList.nil => Except.ok []
  | EntryList.cons k v rest =>
      let newPath := joinKey path k
      if hasKey aes k = false then
        match compareEntriesE path rest aes with
        | Except.error e => Except.error e
        | Except.ok tail =>
            Except.ok
              ([⟨newPath, v, ConfigValue.null,
                "Configuration key \x27" ++ newPath ++ "\x27 not found in workspace."⟩] ++
                tail)
      else
        match dictGetE aes k with
        | Except.error e => Except.error e
        | Except.ok w =>
            match compareValuesE newPath v w with
            | Except.error e => Except.error e
            | Except.ok head =>
                match compareEntriesE path rest aes with
                | Except.error e => Except.error e
                | Except.ok tail => Except.ok (head ++ tail)

end

/-- Membership of a key-value pair in a dict's entry list. -/
def entryMem (k : String) (v : ConfigValue) : EntryList → Prop
  | EntryList.nil => False
  | EntryList.cons k2 v2 t => (k2 = k ∧ v2 = v) ∨ entryMem k v t

/-- Membership of a value in a sequence's item list. -/
def memVL (x : ConfigValue) : ValueList → Prop
  | ValueList.nil => False
  | ValueList.cons h t => h = x ∨ memVL x t

/-- Whether a value is a dict. -/
def isMap : ConfigValue → Bool
  | ConfigValue.map _ => true
  | _ => false

/-- Whether a value is a list. -/
def isSeq : ConfigValue → Bool
  | ConfigValue.seq _ => true
  | _ => false

/-- Whether a value is a boolean. -/
def isBool : ConfigValue → Bool
  | ConfigValue.bool _ => true
  | _ => false

/-- Whether a value is a string. -/
def isStr : ConfigValue → Bool
  | ConfigValue.str _ => true
  | _ => false

mutual

/-- Well-formedness: every dict anywhere in the tree has pairwise distinct
keys, as every genuine Python dict does. -/
def wfCV : ConfigValue → Bool
  | ConfigValue.null => true
  | ConfigValue.bool _ => true
  | ConfigValue.int _ => true
  | ConfigValue.str _ => true
  | ConfigValue.seq items => wfVL items
  | ConfigValue.map es => wfEL es

/-- Well-formedness of every item of a sequence. -/
def wfVL : ValueList → Bool
  | ValueList.nil => true
  | ValueList.cons h t => wfCV h && wfVL t

/-- Well-formedness of a dict's entries: the head key does not recur in the
tail, the head value is well-formed, and so is the tail. -/
def wfEL : EntryList → Bool
  | EntryList.nil => true
  | EntryList.cons k v t => !(hasKey t k) && wfCV v && wfEL t

end

mutual

/-- Syntactic (constructor-wise) equality of trees, identifying dicts only
when their entries agree in order — the identity of runtime values up to the
embedding. -/
def synEq : ConfigValue → ConfigValue → Bool
  | ConfigValue.null, ConfigValue.null => true
  | ConfigValue.bool b, ConfigValue.bool c => b == c
  | ConfigValue.int n, ConfigValue.int m => n == m
  | ConfigValue.str s, ConfigValue.str t => s == t
  | ConfigValue.seq xs, ConfigValue.seq ys => synEqVL xs ys
  | ConfigValue.map xs, ConfigValue.map ys => synEqEL xs ys
  | _, _ => false

/-- Pointwise syntactic equality of item lists. -/
def synEqVL : ValueList → ValueList → Bool
  | ValueList.nil, ValueList.nil => true
  | ValueList.cons x xs, ValueList.cons y ys => synEq x y && synEqVL xs ys
  | _, _ => false

/-- Pointwise syntactic equality of entry lists (same keys, same order). -/
def synEqEL : EntryList → EntryList → Bool
  | EntryList.nil, EntryList.nil => true
  | EntryList.cons k v t, EntryList.cons k2 v2 t2 => k == k2 && synEq v v2 && synEqEL t t2
  | _, _ => false

end

mutual

/-- `actual` is obtained from `expected` by adding extra keys to dicts that
are reached by dict descent only: at a dict, every expected entry must be
present (by key) with an extending value and further keys are allowed; at a
list or a scalar, the two sides must be syntactically identical. -/
def extendsCV : ConfigValue → ConfigValue → Bool
  | ConfigValue.map es, ConfigValue.map aes => extendsEL es aes
  | ConfigValue.map _, _ => false
  | e, a => synEq e a

/-- Every entry of the expected dict is present in the actual dict with an
extending value. -/
def extendsEL : EntryList → EntryList → Bool
  | EntryList.nil, _ => true
  | EntryList.cons k v t, aes =>
      (match dictGet aes k with
       | some w => extendsCV v w
       | none => false) && extendsEL t aes

end

mutual

/-- The claim's wording of "actual is obtained from expected by adding extra
keys to any of its Mappings without altering existing paths": extra keys may
appear in any dict of the tree, including dicts sitting inside list items,
while list lengths, item order and scalars are preserved. -/
def specExtendsCV : ConfigValue → ConfigValue → Bool
  | ConfigValue.map es, ConfigValue.map aes => specExtendsEL es aes
  | ConfigValue.map _, _ => false
  | ConfigValue.seq xs, ConfigValue.seq ys => specExtendsVL xs ys
  | ConfigValue.seq _, _ => false
  | e, a => synEq e a

/-- Pointwise extension of list items. -/
def specExtendsVL : ValueList → ValueList → Bool
  | ValueList.nil, ValueList.nil => true
  | ValueList.cons x xs, ValueList.cons y ys => specExtendsCV x y && specExtendsVL xs ys
  | _, _ => false

/-- Every expected entry present with an extending value, extra keys allowed. -/
def specExtendsEL : EntryList → EntryList → Bool
  | EntryList.nil, _ => true
  | EntryList.cons k v t, aes =>
      (match dictGet aes k with
       | some w => specExtendsCV v w
       | none => false) && specExtendsEL t aes

end

/-- Every item of the first list is `pyEq`-present in the second. -/
def itemsAllMem : ValueList → ValueList → Bool
  | ValueList.nil, _ => true
  | ValueList.cons h t, aitems => pyMem h aitems && itemsAllMem t aitems

mutual

/-- Structural containment exactly as `compare_values` decides it: at a dict,
the actual value is a dict holding every expected key with a contained value
(extra actual keys irrelevant); at a list, the actual value is a list that
`pyEq`-contains every expected item; at a scalar, equality under the code's
coercion — whenever the actual value is a boolean and the expected value is a
string, the string counts as `True` exactly when it lowercases to `"true"`
and as `False` otherwise. -/
def codeContains : ConfigValue → ConfigValue → Bool
  | ConfigValue.map es, ConfigValue.map aes => containsEntries es aes
  | ConfigValue.map _, _ => false
  | ConfigValue.seq items, ConfigValue.seq aitems => itemsAllMem items aitems
  | ConfigValue.seq _, _ => false
  | e, a =>
      match a, e with
      | ConfigValue.bool ab, ConfigValue.str s => ab == (pyLower s == "true")
      | _, _ => pyEq a e

/-- Keywise containment of dict entries. -/
def containsEntries : EntryList → EntryList → Bool
  | EntryList.nil, _ => true
  | EntryList.cons k v t, aes =>
      (match dictGet aes k with
       | some w => codeContains v w
       | none => false) && containsEntries t aes

end

mutual

/-- Structural containment as worded by the specification: identical to
`codeContains` except at scalars, where the only coercion is the documented
one — an expected string against a boolean actual is coerced only when it
lowercases to the recognized literal `"true"` or `"false"`; any other
expected string against a boolean is a direct (failing) equality. -/
def specContains : ConfigValue → ConfigValue → Bool
  | ConfigValue.map es, ConfigValue.map aes => specContainsEntries es aes
  | ConfigValue.map _, _ => false
  | ConfigValue.seq items, ConfigValue.seq aitems => itemsAllMem items aitems
  | ConfigValue.seq _, _ => false
  | e, a =>
      match a, e with
      | ConfigValue.bool ab, ConfigValue.str s =>
          if pyLower s == "true" || pyLower s == "false" then
            ab == (pyLower s == "true")
          else
            pyEq a e
      | _, _ => pyEq a e

/-- Keywise containment of dict entries, spec-worded scalar rule. -/
def specContainsEntries : EntryList → EntryList → Bool
  | EntryList.nil, _ => true
  | EntryList.cons k v t, aes =>
      (match dictGet aes k with
       | some w => specContains v w
       | none => false) && specContainsEntries t aes

end

/-- Resolution of a path, given as a list of key segments, in a tree: the
empty path resolves to the tree itself, and a segment descends into a dict
entry. -/
def resolve : ConfigValue → List String → Option ConfigValue
  | v, [] => some v
  | ConfigValue.map es, k :: rest =>
      (match dictGet es k with
       | some w => resolve w rest
       | none => none)
  | _, _ :: _ => none

/-- The dotted rendering of a segment list appended to a base path, extending
one key at a time with `joinKey`. -/
def joinSegs (path : String) : List String → String
  | [] => path
  | k :: rest => joinSegs (joinKey path k) rest

/-! Basic lemmas about sizes, lookups and well-formedness.  The `induction`
tactic does not handle mutual inductive families, so we first derive plain
structural induction principles for `EntryList` and `ValueList` (treating the
stored values as opaque), plus a strong induction principle on `ConfigValue`
by size. -/

theorem elInd (P : EntryList → Prop) (h0 : P EntryList.nil)
    (h1 : ∀ k v t, P t → P (EntryList.cons k v t)) : ∀ es, P es := by
  have key : ∀ (n : Nat) (es : EntryList), sizeOf es < n → P es := by
    intro n
    induction n with
    | zero => intro es h; omega
    | succ n ih =>
        intro es h
        match es with
        | EntryList.nil => exact h0
        | EntryList.cons k v t =>
            refine h1 k v t (ih t ?_)
            have hlt : sizeOf t < sizeOf (EntryList.cons k v t) := by simp
            omega
  intro es
  exact key (sizeOf es + 1) es (Nat.lt_succ_self _)

theorem vlInd (P : ValueList → Prop) (h0 : P ValueList.nil)
    (h1 : ∀ x t, P t → P (ValueList.cons x t)) : ∀ l, P l := by
  have key : ∀ (n : Nat) (l : ValueList), sizeOf l < n → P l := by
    intro n
    induction n with
    | zero => intro l h; omega
    | succ n ih =>
        intro l h
        match l with
        | ValueList.nil => exact h0
        | ValueList.cons x t =>
            refine h1 x t (ih t ?_)
            have hlt : sizeOf t < sizeOf (ValueList.cons x t) := by simp
            omega
  intro l
  exact key (sizeOf l + 1) l (Nat.lt_succ_self _)

theorem cvStrongInd (P : ConfigValue → Prop)
    (step : ∀ v, (∀ w, sizeOf w < sizeOf v → P w) → P v) : ∀ v, P v := by
  have key : ∀ (n : Nat) (v : ConfigValue), sizeOf v < n → P v := by
    intro n
    induction n with
    | zero => intro v hv; omega
    | succ n ih => intro v hv; exact step v (fun w hw => ih w (by omega))
  intro v
  exact key (sizeOf v + 1) v (Nat.lt_succ_self _)

theorem entryMem_sizeOf {k : String} {v : ConfigValue} :
    ∀ {es : EntryList}, entryMem k v es → sizeOf v < sizeOf es := by
  intro es
  induction es using elInd with
  | h0 => exact fun h => h.elim
  | h1 k2 v2 t ih =>
      intro h
      rcases h with ⟨_, rfl⟩ | h
      · simp; omega
      · have := ih h
        simp
        omega

theorem memVL_sizeOf {x : ConfigValue} :
    ∀ {l : ValueList}, memVL x l → sizeOf x < sizeOf l := by
  intro l
  induction l using vlInd with
  | h0 => exact fun h => h.elim
  | h1 h2 t ih =>
      intro h
      rcases h with rfl | h
      · simp; omega
      · have := ih h
        simp
        omega

theorem dictGet_entryMem {k : String} {v : ConfigValue} :
    ∀ {es : EntryList}, dictGet es k = some v → entryMem k v es := by
  intro es
  induction es using elInd with
  | h0 => intro h; simp [dictGet] at h
  | h1 k2 v2 t ih =>
      intro h
      simp only [dictGet] at h
      by_cases hk : k2 = k
      · simp [hk] at h
        exact Or.inl ⟨hk, h⟩
      · simp [hk] at h
        exact Or.inr (ih h)

theorem entryMem_hasKey {k : String} {v : ConfigValue} :
    ∀ {es : EntryList}, entryMem k v es → hasKey es k = true := by
  intro es
  induction es using elInd with
  | h0 => exact fun h => h.elim
  | h1 k2 v2 t ih =>
      intro h
      rcases h with ⟨rfl, _⟩ | h
      · simp [hasKey, dictGet]
      · simp only [hasKey, dictGet]
        by_cases hk : k2 = k
        · simp [hk]
        · simp [hk]
          exact ih h

theorem hasKey_iff_mem_keys {k : String} :
    ∀ {es : EntryList}, hasKey es k = true ↔ k ∈ keysEL es := by
  intro es
  induction es using elInd with
  | h0 => simp [hasKey, dictGet, keysEL]
  | h1 k2 v2 t ih =>
      simp only [hasKey, dictGet, keysEL]
      by_cases hk : k2 = k
      · simp [hk]
      · simp only [hk, if_false, List.mem_cons]
        rw [← hasKey]
        simp [ih, Ne.symm hk]

theorem dictGet_none_iff {k : String} {es : EntryList} :
    dictGet es k = none ↔ k ∉ keysEL es := by
  rw [← hasKey_iff_mem_keys]
  constructor
  · intro h hk
    rw [hasKey, h] at hk
    simp at hk
  · intro h
    cases hd : dictGet es k with
    | none => rfl
    | some v => exact absurd (by rw [hasKey, hd]; rfl) h

theorem wfEL_cons_iff {k : String} {v : ConfigValue} {t : EntryList} :
    wfEL (EntryList.cons k v t) = true ↔
      hasKey t k = false ∧ wfCV v = true ∧ wfEL t = true := by
  simp [wfEL, Bool.and_eq_true, Bool.not_eq_true', and_assoc]

theorem wfEL_nodup_keys : ∀ {es : EntryList}, wfEL es = true → (keysEL es).Nodup := by
  intro es
  induction es using elInd with
  | h0 => intro _; simp [keysEL]
  | h1 k v t ih =>
      intro h
      rw [wfEL_cons_iff] at h
      simp only [keysEL, List.nodup_cons]
      refine ⟨fun hk => ?_, ih h.2.2⟩
      rw [← hasKey_iff_mem_keys] at hk
      rw [h.1] at hk
      exact Bool.false_ne_true hk

theorem nodup_dictGet {k : String} {v : ConfigValue} :
    ∀ {es : EntryList}, (keysEL es).Nodup → entryMem k v es → dictGet es k = some v := by
  intro es
  induction es using elInd with
  | h0 => exact fun _ h => h.elim
  | h1 k2 v2 t ih =>
      intro hn h
      simp only [keysEL, List.nodup_cons] at hn
      rcases h with ⟨rfl, rfl⟩ | h
      · simp [dictGet]
      · have hk : k2 ≠ k := by
          rintro rfl
          exact hn.1 (hasKey_iff_mem_keys.mp (entryMem_hasKey h))
        simp only [dictGet, hk, if_false]
        exact ih hn.2 h

theorem wf_dictGet {k : String} {v : ConfigValue} {es : EntryList}
    (hwf : wfEL es = true) (h : entryMem k v es) : dictGet es k = some v :=
  nodup_dictGet (wfEL_nodup_keys hwf) h

theorem wf_entryMem_value {k : String} {v : ConfigValue} :
    ∀ {es : EntryList}, wfEL es = true → entryMem k v es → wfCV v = true := by
  intro es
  induction es using elInd with
  | h0 => exact fun _ h => h.elim
  | h1 k2 v2 t ih =>
      intro hwf h
      rw [wfEL_cons_iff] at hwf
      rcases h with ⟨_, rfl⟩ | h
      · exact hwf.2.1
      · exact ih hwf.2.2 h

theorem wfVL_memVL_value {x : ConfigValue} :
    ∀ {l : ValueList}, wfVL l = true → memVL x l → wfCV x = true := by
  intro l
  induction l using vlInd with
  | h0 => exact fun _ h => h.elim
  | h1 h2 t ih =>
      intro hwf h
      simp only [wfVL, Bool.and_eq_true] at hwf
      rcases h with rfl | h
      · exact hwf.1
      · exact ih hwf.2 h

theorem entryMem_toList {k : String} {v : ConfigValue} :
    ∀ {es : EntryList}, entryMem k v es ↔ (k, v) ∈ entriesToList es := by
  intro es
  induction es using elInd with
  | h0 => simp [entryMem, entriesToList]
  | h1 k2 v2 t ih =>
      simp only [entryMem, entriesToList, List.mem_cons, ih, Prod.mk.injEq]
      constructor
      · rintro (⟨rfl, rfl⟩ | h)
        · exact Or.inl ⟨rfl, rfl⟩
        · exact Or.inr h
      · rintro (⟨rfl, rfl⟩ | h)
        · exact Or.inl ⟨rfl, rfl⟩
        · exact Or.inr h

theorem keysEL_eq_map_fst : ∀ {es : EntryList},
    keysEL es = (entriesToList es).map Prod.fst := by
  intro es
  induction es using elInd with
  | h0 => rfl
  | h1 k v t ih => simp [keysEL, entriesToList, ih]

theorem dictGet_congr_perm {a b : EntryList}
    (hperm : (entriesToList a).Perm (entriesToList b))
    (hna : (keysEL a).Nodup) (k : String) : dictGet a k = dictGet b k := by
  have hnb : (keysEL b).Nodup := by
    rw [keysEL_eq_map_fst]
    rw [keysEL_eq_map_fst] at hna
    exact ((hperm.map Prod.fst).nodup_iff).mp hna
  cases hga : dictGet a k with
  | some v =>
      have hm : (k, v) ∈ entriesToList b :=
        hperm.mem_iff.mp (entryMem_toList.mp (dictGet_entryMem hga))
      exact (nodup_dictGet hnb (entryMem_toList.mpr hm)).symm
  | none =>
      cases hgb : dictGet b k with
      | none => rfl
      | some w =>
          have hm : (k, w) ∈ entriesToList a :=
            hperm.mem_iff.mpr (entryMem_toList.mp (dictGet_entryMem hgb))
          rw [nodup_dictGet hna (entryMem_toList.mpr hm)] at hga
          exact Option.noConfusion hga

/-! Unfolding and characterization lemmas for the comparator. -/

theorem cv_map_map {path : String} {es aes : EntryList} :
    compareValues path (ConfigValue.map es) (ConfigValue.map aes) =
      compareEntries path es aes := rfl

theorem cv_seq_seq {path : String} {items aitems : ValueList} :
    compareValues path (ConfigValue.seq items) (ConfigValue.seq aitems) =
      compareItems path items aitems := rfl

theorem cv_map_shape {path : String} {es : EntryList} {a : ConfigValue}
    (h : isMap a = false) :
    compareValues path (ConfigValue.map es) a =
      [⟨path, ConfigValue.map es, a,
        "Expected a dictionary at \x27" ++ path ++ "\x27, but found " ++
          typeName a ++ "."⟩] := by
  cases a <;> first | rfl | simp [isMap] at h

theorem cv_seq_shape {path : String} {items : ValueList} {a : ConfigValue}
    (h : isSeq a = false) :
    compareValues path (ConfigValue.seq items) a =
      [⟨path, ConfigValue.seq items, a,
        "Expected a list at \x27" ++ path ++ "\x27, but found " ++
          typeName a ++ "."⟩] := by
  cases a <;> first | rfl | simp [isSeq] at h

theorem cv_scalar {path : String} {e a : ConfigValue}
    (h1 : isMap e = false) (h2 : isSeq e = false) :
    compareValues path e a = compareScalar path e a := by
  cases e
  · rfl
  · rfl
  · rfl
  · rfl
  · exact absurd h2 (by simp [isSeq])
  · exact absurd h1 (by simp [isMap])

theorem compareEntries_cons {path k : String} {v : ConfigValue} {t aes : EntryList} :
    compareEntries path (EntryList.cons k v t) aes =
      entryBlock path aes k v ++ compareEntries path t aes := by
  cases h : dictGet aes k <;> simp [compareEntries, entryBlock, h]

theorem mem_compareEntries {m : Mismatch} {path : String} {aes : EntryList} :
    ∀ {es : EntryList},
      m ∈ compareEntries path es aes ↔
        ∃ k v, entryMem k v es ∧ m ∈ entryBlock path aes k v := by
  intro es
  induction es using elInd with
  | h0 => simp [compareEntries, entryMem]
  | h1 k v t ih =>
      rw [compareEntries_cons]
      simp only [List.mem_append, ih, entryMem]
      constructor
      · rintro (h | ⟨k2, v2, hm, hb⟩)
        · exact ⟨k, v, Or.inl ⟨rfl, rfl⟩, h⟩
        · exact ⟨k2, v2, Or.inr hm, hb⟩
      · rintro ⟨k2, v2, ⟨rfl, rfl⟩ | hm, hb⟩
        · exact Or.inl hb
        · exact Or.inr ⟨k2, v2, hm, hb⟩

theorem compareEntries_flatMap {path : String} {aes : EntryList} :
    ∀ {es : EntryList},
      compareEntries path es aes =
        (entriesToList es).flatMap (fun kv => entryBlock path aes kv.1 kv.2) := by
  intro es
  induction es using elInd with
  | h0 => rfl
  | h1 k v t ih => simp [compareEntries_cons, entriesToList, ih]

theorem compareItems_cons {path : String} {item : ConfigValue} {rest aitems : ValueList} :
    compareItems path (ValueList.cons item rest) aitems =
      (if pyMem item aitems then []
       else
         [⟨path, item, ConfigValue.null,
           "Expected list item \x27" ++ pyStr item ++ "\x27 not found in \x27" ++
             path ++ "\x27."⟩]) ++
      compareItems path rest aitems := rfl

theorem compareItems_nil_iff {path : String} {aitems : ValueList} :
    ∀ {items : ValueList},
      compareItems path items aitems = [] ↔ itemsAllMem items aitems = true := by
  intro items
  induction items using vlInd with
  | h0 => simp [compareItems, itemsAllMem]
  | h1 item t ih =>
      rw [compareItems_cons]
      by_cases hm : pyMem item aitems
      · simp [hm, itemsAllMem, ih]
      · simp [hm, itemsAllMem, ih]

theorem mem_compareItems {m : Mismatch} {path : String} {aitems : ValueList} :
    ∀ {items : ValueList},
      m ∈ compareItems path items aitems ↔
        ∃ item, memVL item items ∧ pyMem item aitems = false ∧
          m = ⟨path, item, ConfigValue.null,
            "Expected list item \x27" ++ pyStr item ++ "\x27 not found in \x27" ++
              path ++ "\x27."⟩ := by
  intro items
  induction items using vlInd with
  | h0 => simp [compareItems, memVL]
  | h1 item t ih =>
      rw [compareItems_cons]
      by_cases hm : pyMem item aitems
      · rw [if_pos hm]
        rw [List.nil_append, ih]
        constructor
        · rintro ⟨x, hx, hpm, rfl⟩
          exact ⟨x, Or.inr hx, hpm, rfl⟩
        · rintro ⟨x, hx, hpm, rfl⟩
          rcases hx with rfl | hx
          · exact absurd hm (by simp [hpm])
          · exact ⟨x, hx, hpm, rfl⟩
      · rw [if_neg hm]
        constructor
        · intro h
          rcases List.mem_append.mp h with h | h
          · rcases List.mem_singleton.mp h with rfl
            exact ⟨item, Or.inl rfl, by simpa using hm, rfl⟩
          · rcases ih.mp h with ⟨x, hx, hpm, rfl⟩
            exact ⟨x, Or.inr hx, hpm, rfl⟩
        · rintro ⟨x, hx, hpm, rfl⟩
          rcases hx with rfl | hx
          · exact List.mem_append.mpr (Or.inl (List.mem_singleton.mpr rfl))
          · exact List.mem_append.mpr (Or.inr (ih.mpr ⟨x, hx, hpm, rfl⟩))

theorem compareItems_flatMap {path : String} {aitems : ValueList} :
    ∀ {items : ValueList},
      compareItems path items aitems =
        (itemsToList items).flatMap (fun item =>
          if pyMem item aitems then []
          else
            [⟨path, item, ConfigValue.null,
              "Expected list item \x27" ++ pyStr item ++ "\x27 not found in \x27" ++
                path ++ "\x27."⟩]) := by
  intro items
  induction items using vlInd with
  | h0 => rfl
  | h1 item t ih => simp only [compareItems_cons, itemsToList, List.flatMap_cons, ih]

theorem compareScalar_cases (path : String) (e a : ConfigValue) :
    compareScalar path e a = [] ∨
      ∃ x msg, compareScalar path e a = [⟨path, x, a, msg⟩] := by
  cases a <;> cases e <;> (simp only [compareScalar]; split) <;>
    first
      | exact Or.inl rfl
      | exact Or.inr ⟨_, _, rfl⟩

theorem compareScalar_mem {m : Mismatch} {path : String} {e a : ConfigValue}
    (h : m ∈ compareScalar path e a) : m.path = path ∧ m.actual = a := by
  rcases compareScalar_cases path e a with hc | ⟨x, msg, hc⟩
  · rw [hc] at h
    exact absurd h (List.not_mem_nil m)
  · rw [hc] at h
    rcases List.mem_singleton.mp h with rfl
    exact ⟨rfl, rfl⟩

/-! Emptiness of the report coincides with structural containment. -/

theorem isMap_eq_true {a : ConfigValue} (h : isMap a = true) :
    ∃ aes, a = ConfigValue.map aes := by
  cases a <;> simp [isMap] at h ⊢

theorem isSeq_eq_true {a : ConfigValue} (h : isSeq a = true) :
    ∃ aitems, a = ConfigValue.seq aitems := by
  cases a <;> simp [isSeq] at h ⊢

theorem cc_map_shape {es : EntryList} {a : ConfigValue} (h : isMap a = false) :
    codeContains (ConfigValue.map es) a = false := by
  cases a <;> first | rfl | simp [isMap] at h

theorem cc_seq_shape {items : ValueList} {a : ConfigValue} (h : isSeq a = false) :
    codeContains (ConfigValue.seq items) a = false := by
  cases a <;> first | rfl | simp [isSeq] at h

theorem compareScalar_nil_iff {path : String} {e a : ConfigValue}
    (h1 : isMap e = false) (h2 : isSeq e = false) :
    (compareScalar path e a = [] ↔ codeContains e a = true) := by
  cases e
  case seq items => exact absurd h2 (by simp [isSeq])
  case map es => exact absurd h1 (by simp [isMap])
  all_goals
    cases a <;> (simp only [compareScalar, codeContains]; try split) <;> simp_all [bne]

theorem containsEntries_iff_aux :
    ∀ (es aes : EntryList) (path : String),
      (∀ k v, entryMem k v es → ∀ (path' : String) (a' : ConfigValue),
        (compareValues path' v a' = [] ↔ codeContains v a' = true)) →
      (compareEntries path es aes = [] ↔ containsEntries es aes = true) := by
  intro es
  induction es using elInd with
  | h0 => intro aes path _; simp [compareEntries, containsEntries]
  | h1 k v t ih =>
      intro aes path hval
      rw [compareEntries_cons, List.append_eq_nil]
      have hrest := ih aes path (fun k' v' hm => hval k' v' (Or.inr hm))
      cases hd : dictGet aes k with
      | none => simp [containsEntries, entryBlock, hd, hrest]
      | some w =>
          have hv := hval k v (Or.inl ⟨rfl, rfl⟩) (joinKey path k) w
          simp [containsEntries, entryBlock, hd, hrest, hv, Bool.and_eq_true]

theorem compareValues_nil_iff :
    ∀ (e : ConfigValue) (path : String) (a : ConfigValue),
      (compareValues path e a = [] ↔ codeContains e a = true) := by
  refine cvStrongInd _ ?_
  intro e IH path a
  cases e with
  | null => exact compareScalar_nil_iff (by rfl) (by rfl)
  | bool b => exact compareScalar_nil_iff (by rfl) (by rfl)
  | int n => exact compareScalar_nil_iff (by rfl) (by rfl)
  | str s => exact compareScalar_nil_iff (by rfl) (by rfl)
  | seq items =>
      by_cases ha : isSeq a = true
      · obtain ⟨aitems, rfl⟩ := isSeq_eq_true ha
        rw [cv_seq_seq]
        show _ ↔ itemsAllMem items aitems = true
        exact compareItems_nil_iff
      · have ha' : isSeq a = false := by simpa using ha
        rw [cv_seq_shape ha', cc_seq_shape ha']
        simp
  | map es =>
      by_cases ha : isMap a = true
      · obtain ⟨aes, rfl⟩ := isMap_eq_true ha
        rw [cv_map_map]
        show _ ↔ containsEntries es aes = true
        refine containsEntries_iff_aux es aes path (fun k v hm path' a' => ?_)
        have hlt : sizeOf v < sizeOf (ConfigValue.map es) := by
          have := entryMem_sizeOf hm
          simp
          omega
        exact IH v hlt path' a'
      · have ha' : isMap a = false := by simpa using ha
        rw [cv_map_shape ha', cc_map_shape ha']
        simp

/-! The comparator is total: the error-explicit version never raises. -/

theorem compareEntriesE_ok_aux :
    ∀ (es aes : EntryList) (path : String),
      (∀ k v, entryMem k v es → ∀ (path' : String) (a' : ConfigValue),
        compareValuesE path' v a' = Except.ok (compareValues path' v a')) →
      compareEntriesE path es aes = Except.ok (compareEntries path es aes) := by
  intro es
  induction es using elInd with
  | h0 => intro aes path _; rfl
  | h1 k v t ih =>
      intro aes path hval
      have hrest := ih aes path (fun k' v' hm => hval k' v' (Or.inr hm))
      simp only [compareEntriesE, compareEntries]
      cases hd : dictGet aes k with
      | none =>
          have hhk : hasKey aes k = false := by simp [hasKey, hd]
          simp [hhk, hd, hrest]
      | some w =>
          have hhk : hasKey aes k = true := by simp [hasKey, hd]
          have hv := hval k v (Or.inl ⟨rfl, rfl⟩) (joinKey path k) w
          simp [hhk, hd, hrest, hv, dictGetE]

theorem compareValuesE_ok :
    ∀ (e : ConfigValue) (path : String) (a : ConfigValue),
      compareValuesE path e a = Except.ok (compareValues path e a) := by
  refine cvStrongInd _ ?_
  intro e IH path a
  cases e with
  | null => rfl
  | bool b => rfl
  | int n => rfl
  | str s => rfl
  | seq items => cases a <;> rfl
  | map es =>
      cases a
      case map aes =>
        refine compareEntriesE_ok_aux es aes path (fun k v hm path' a' => ?_)
        have hlt : sizeOf v < sizeOf (ConfigValue.map es) := by
          have := entryMem_sizeOf hm
          simp
          omega
        exact IH v hlt path' a'
      all_goals rfl

/-! Every mismatch points at a path of the expected tree; the stored actual
value is the resolved one, with `None` standing for a missing path, a null
actual value, or a failed list-membership check. -/

theorem resolve_nil (v : ConfigValue) : resolve v [] = some v := by
  cases v <;> rfl

theorem invariant_single {path : String} {e a : ConfigValue} {m : Mismatch}
    (hp : m.path = path) (ha : m.actual = a) :
    ∃ segs w, resolve e segs = some w ∧ m.path = joinSegs path segs ∧
      (m.actual ≠ ConfigValue.null → resolve a segs = some m.actual) ∧
      (m.actual = ConfigValue.null →
        resolve a segs = none ∨ resolve a segs = some ConfigValue.null ∨
        ∃ l, resolve a segs = some (ConfigValue.seq l) ∧ pyMem m.expected l = false) := by
  refine ⟨[], e, resolve_nil e, hp, ?_, ?_⟩
  · intro _
    rw [ha]
    exact resolve_nil a
  · intro h
    have hanull : a = ConfigValue.null := ha.symm.trans h
    subst hanull
    exact Or.inr (Or.inl rfl)

theorem compareValues_path_invariant :
    ∀ (e : ConfigValue) (path : String) (a : ConfigValue) (m : Mismatch),
      wfCV e = true → m ∈ compareValues path e a →
      ∃ segs w, resolve e segs = some w ∧ m.path = joinSegs path segs ∧
        (m.actual ≠ ConfigValue.null → resolve a segs = some m.actual) ∧
        (m.actual = ConfigValue.null →
          resolve a segs = none ∨ resolve a segs = some ConfigValue.null ∨
          ∃ l, resolve a segs = some (ConfigValue.seq l) ∧ pyMem m.expected l = false) := by
  refine cvStrongInd _ ?_
  intro e IH path a m hwf hm
  cases e with
  | null =>
      obtain ⟨hp, ha⟩ := compareScalar_mem hm
      exact invariant_single hp ha
  | bool b =>
      obtain ⟨hp, ha⟩ := compareScalar_mem hm
      exact invariant_single hp ha
  | int n =>
      obtain ⟨hp, ha⟩ := compareScalar_mem hm
      exact invariant_single hp ha
  | str s =>
      obtain ⟨hp, ha⟩ := compareScalar_mem hm
      exact invariant_single hp ha
  | seq items =>
      by_cases ha : isSeq a = true
      · obtain ⟨aitems, rfl⟩ := isSeq_eq_true ha
        rw [cv_seq_seq] at hm
        obtain ⟨item, hmem, hpm, rfl⟩ := mem_compareItems.mp hm
        refine ⟨[], ConfigValue.seq items, rfl, rfl, ?_, ?_⟩
        · intro h
          exact absurd rfl h
        · intro _
          exact Or.inr (Or.inr ⟨aitems, rfl, hpm⟩)
      · have ha' : isSeq a = false := by simpa using ha
        rw [cv_seq_shape ha'] at hm
        rcases List.mem_singleton.mp hm with rfl
        exact invariant_single rfl rfl
  | map es =>
      by_cases ha : isMap a = true
      · obtain ⟨aes, rfl⟩ := isMap_eq_true ha
        rw [cv_map_map] at hm
        obtain ⟨k, v, hkv, hb⟩ := mem_compareEntries.mp hm
        have hvd : dictGet es k = some v := wf_dictGet hwf hkv
        have hwfv : wfCV v = true := wf_entryMem_value hwf hkv
        cases hd : dictGet aes k with
        | none =>
            rw [entryBlock, hd] at hb
            rcases List.mem_singleton.mp hb with rfl
            refine ⟨[k], v, by simp [resolve, hvd], rfl, ?_, ?_⟩
            · intro h
              exact absurd rfl h
            · intro _
              exact Or.inl (by simp [resolve, hd])
        | some w =>
            rw [entryBlock, hd] at hb
            have hlt : sizeOf v < sizeOf (ConfigValue.map es) := by
              have := entryMem_sizeOf hkv
              simp
              omega
            obtain ⟨segs, w2, h1, h2, h3, h4⟩ :=
              IH v hlt (joinKey path k) w m hwfv hb
            have hresA : resolve (ConfigValue.map aes) (k :: segs) = resolve w segs := by
              simp [resolve, hd]
            refine ⟨k :: segs, w2, by simp [resolve, hvd, h1], h2, ?_, ?_⟩
            · intro h
              rw [hresA]
              exact h3 h
            · intro h
              rw [hresA]
              exact h4 h
      · have ha' : isMap a = false := by simpa using ha
        rw [cv_map_shape ha'] at hm
        rcases List.mem_singleton.mp hm with rfl
        exact invariant_single rfl rfl

/-! Reflexivity and extension lemmas: a well-formed tree, and more generally
any actual tree extending it with fresh dict keys, produces an empty report. -/

theorem synEqVL_refl_aux :
    ∀ l : ValueList, (∀ x, memVL x l → synEq x x = true) → synEqVL l l = true := by
  intro l
  induction l using vlInd with
  | h0 => intro _; rfl
  | h1 x t ih =>
      intro h
      simp only [synEqVL, Bool.and_eq_true]
      exact ⟨h x (Or.inl rfl), ih (fun y hy => h y (Or.inr hy))⟩

theorem synEqEL_refl_aux :
    ∀ es : EntryList, (∀ k v, entryMem k v es → synEq v v = true) → synEqEL es es = true := by
  intro es
  induction es using elInd with
  | h0 => intro _; rfl
  | h1 k v t ih =>
      intro h
      simp only [synEqEL, Bool.and_eq_true]
      exact ⟨⟨beq_self_eq_true k, h k v (Or.inl ⟨rfl, rfl⟩)⟩,
        ih (fun k' v' hv => h k' v' (Or.inr hv))⟩

theorem synEq_refl : ∀ v : ConfigValue, synEq v v = true := by
  refine cvStrongInd _ ?_
  intro v IH
  cases v with
  | null => rfl
  | bool b => simp [synEq]
  | int n => simp [synEq]
  | str s => simp [synEq]
  | seq items =>
      show synEqVL items items = true
      refine synEqVL_refl_aux items (fun x hx => IH x ?_)
      have := memVL_sizeOf hx
      simp
      omega
  | map es =>
      show synEqEL es es = true
      refine synEqEL_refl_aux es (fun k v hv => IH v ?_)
      have := entryMem_sizeOf hv
      simp
      omega

theorem synEqEL_keys :
    ∀ xs ys : EntryList, synEqEL xs ys = true → keysEL xs = keysEL ys := by
  intro xs
  induction xs using elInd with
  | h0 =>
      intro ys h
      cases ys with
      | nil => rfl
      | cons k v t => simp [synEqEL] at h
  | h1 k v t ih =>
      intro ys h
      cases ys with
      | nil => simp [synEqEL] at h
      | cons k2 v2 t2 =>
          simp only [synEqEL, Bool.and_eq_true] at h
          simp only [keysEL, eq_of_beq h.1.1, ih t2 h.2]

theorem synEqEL_length :
    ∀ xs ys : EntryList, synEqEL xs ys = true → lengthEL xs = lengthEL ys := by
  intro xs
  induction xs using elInd with
  | h0 =>
      intro ys h
      cases ys with
      | nil => rfl
      | cons k v t => simp [synEqEL] at h
  | h1 k v t ih =>
      intro ys h
      cases ys with
      | nil => simp [synEqEL] at h
      | cons k2 v2 t2 =>
          simp only [synEqEL, Bool.and_eq_true] at h
          simp only [lengthEL, ih t2 h.2]

theorem synEq_dictGet {k : String} {v : ConfigValue} :
    ∀ {xs ys : EntryList}, synEqEL xs ys = true → (keysEL xs).Nodup →
      entryMem k v xs → ∃ w, dictGet ys k = some w ∧ synEq v w = true := by
  intro xs
  induction xs using elInd with
  | h0 => intro ys _ _ h; exact h.elim
  | h1 k2 v2 t ih =>
      intro ys hsyn hnd hm
      cases ys with
      | nil => simp [synEqEL] at hsyn
      | cons k3 v3 t3 =>
          simp only [synEqEL, Bool.and_eq_true] at hsyn
          have hk23 : k2 = k3 := eq_of_beq hsyn.1.1
          simp only [keysEL, List.nodup_cons] at hnd
          rcases hm with ⟨rfl, rfl⟩ | hm
          · exact ⟨v3, by simp [dictGet, hk23.symm], hsyn.1.2⟩
          · have hk2k : k2 ≠ k :=
              fun hk => hnd.1 (hk ▸ hasKey_iff_mem_keys.mp (entryMem_hasKey hm))
            obtain ⟨w, hw, hsw⟩ := ih hsyn.2 hnd.2 hm
            refine ⟨w, ?_, hsw⟩
            rw [show dictGet (EntryList.cons k3 v3 t3) k =
                  dictGet t3 k from by simp [dictGet, hk23 ▸ hk2k]]
            exact hw

theorem pyMem_of_mem {x y : ConfigValue} :
    ∀ {l : ValueList}, memVL y l → pyEq x y = true → pyMem x l = true := by
  intro l
  induction l using vlInd with
  | h0 => exact fun h _ => h.elim
  | h1 h2 t ih =>
      intro hm hq
      rcases hm with rfl | hm
      · simp [pyMem, hq]
      · simp [pyMem, ih hm hq]

theorem synEqVL_mem {x : ConfigValue} :
    ∀ {xs ys : ValueList}, synEqVL xs ys = true → memVL x xs →
      ∃ y, memVL y ys ∧ synEq x y = true := by
  intro xs
  induction xs using vlInd with
  | h0 => intro ys _ h; exact h.elim
  | h1 x2 t ih =>
      intro ys hsyn hm
      cases ys with
      | nil => simp [synEqVL] at hsyn
      | cons y2 t2 =>
          simp only [synEqVL, Bool.and_eq_true] at hsyn
          rcases hm with rfl | hm
          · exact ⟨y2, Or.inl rfl, hsyn.1⟩
          · obtain ⟨y, hy, hsy⟩ := ih hsyn.2 hm
            exact ⟨y, Or.inr hy, hsy⟩

theorem itemsAllMem_of {aitems : ValueList} :
    ∀ xs : ValueList, (∀ x, memVL x xs → pyMem x aitems = true) →
      itemsAllMem xs aitems = true := by
  intro xs
  induction xs using vlInd with
  | h0 => intro _; rfl
  | h1 x t ih =>
      intro h
      simp only [itemsAllMem, Bool.and_eq_true]
      exact ⟨h x (Or.inl rfl), ih (fun y hy => h y (Or.inr hy))⟩

theorem pyEqEntries_of {ys : EntryList} :
    ∀ t : EntryList,
      (∀ k v, entryMem k v t → ∃ w, dictGet ys k = some w ∧ pyEq v w = true) →
      pyEqEntries t ys = true := by
  intro t
  induction t using elInd with
  | h0 => intro _; rfl
  | h1 k v t2 ih =>
      intro h
      obtain ⟨w, hw, hq⟩ := h k v (Or.inl ⟨rfl, rfl⟩)
      simp only [pyEqEntries, Bool.and_eq_true, hw, hq]
      exact ⟨trivial, ih (fun k' v' hv => h k' v' (Or.inr hv))⟩

theorem pyEqItems_of_synEq :
    ∀ xs ys : ValueList, synEqVL xs ys = true →
      (∀ x, memVL x xs → ∀ y, synEq x y = true → pyEq x y = true) →
      pyEqItems xs ys = true := by
  intro xs
  induction xs using vlInd with
  | h0 =>
      intro ys hsyn _
      cases ys with
      | nil => rfl
      | cons y t => simp [synEqVL] at hsyn
  | h1 x t ih =>
      intro ys hsyn h
      cases ys with
      | nil => simp [synEqVL] at hsyn
      | cons y t2 =>
          simp only [synEqVL, Bool.and_eq_true] at hsyn
          simp only [pyEqItems, Bool.and_eq_true]
          exact ⟨h x (Or.inl rfl) y hsyn.1,
            ih t2 hsyn.2 (fun x' hx => h x' (Or.inr hx))⟩

theorem synEq_pyEq :
    ∀ (x : ConfigValue), wfCV x = true → ∀ y, synEq x y = true → pyEq x y = true := by
  refine cvStrongInd _ ?_
  intro x IH hwf y hsyn
  cases x with
  | null => cases y <;> simp_all [synEq, pyEq]
  | bool b => cases y <;> simp_all [synEq, pyEq]
  | int n => cases y <;> simp_all [synEq, pyEq]
  | str s => cases y <;> simp_all [synEq, pyEq]
  | seq items =>
      cases y with
      | seq ys =>
          show pyEqItems items ys = true
          refine pyEqItems_of_synEq items ys hsyn (fun x' hx y' hsy => ?_)
          have hlt : sizeOf x' < sizeOf (ConfigValue.seq items) := by
            have := memVL_sizeOf hx
            simp
            omega
          exact IH x' hlt (wfVL_memVL_value hwf hx) y' hsy
      | _ => simp_all [synEq]
  | map es =>
      cases y with
      | map ys =>
          have hlen : lengthEL es = lengthEL ys := synEqEL_length es ys hsyn
          have hnd : (keysEL es).Nodup := wfEL_nodup_keys hwf
          show (lengthEL es == lengthEL ys && pyEqEntries es ys) = true
          simp only [Bool.and_eq_true, beq_iff_eq]
          refine ⟨hlen, pyEqEntries_of es (fun k v hv => ?_)⟩
          obtain ⟨w, hw, hsw⟩ := synEq_dictGet hsyn hnd hv
          have hlt : sizeOf v < sizeOf (ConfigValue.map es) := by
            have := entryMem_sizeOf hv
            simp
            omega
          exact ⟨w, hw, IH v hlt (wf_entryMem_value hwf hv) w hsw⟩
      | _ => simp_all [synEq]

theorem extendsEL_entryMem {k : String} {v : ConfigValue} {aes : EntryList} :
    ∀ {t : EntryList}, extendsEL t aes = true → entryMem k v t →
      ∃ w, dictGet aes k = some w ∧ extendsCV v w = true := by
  intro t
  induction t using elInd with
  | h0 => intro _ h; exact h.elim
  | h1 k2 v2 t2 ih =>
      intro hext hm
      simp only [extendsEL, Bool.and_eq_true] at hext
      rcases hm with ⟨rfl, rfl⟩ | hm
      · rcases hd : dictGet aes k2 with _ | w
        · rw [hd] at hext
          simp at hext
        · rw [hd] at hext
          exact ⟨w, rfl, hext.1⟩
      · exact ih hext.2 hm

theorem extends_nonmap {e a : ConfigValue} (h : isMap e = false) :
    extendsCV e a = synEq e a := by
  cases e <;> first | rfl | simp [isMap] at h

theorem extends_map_shape {es : EntryList} {a : ConfigValue} (h : isMap a = false) :
    extendsCV (ConfigValue.map es) a = false := by
  cases a <;> first | rfl | simp [isMap] at h

theorem scalar_synEq_empty {path : String} {e a : ConfigValue}
    (h1 : isMap e = false) (h2 : isSeq e = false) (hsyn : synEq e a = true) :
    compareScalar path e a = [] := by
  cases e
  case seq items => exact absurd h2 (by simp [isSeq])
  case map es => exact absurd h1 (by simp [isMap])
  all_goals cases a <;> simp_all [synEq, compareScalar, pyEq, bne]

theorem entries_empty_aux {aes : EntryList} {path : String} :
    ∀ t : EntryList,
      (∀ k v, entryMem k v t →
        ∃ w, dictGet aes k = some w ∧ compareValues (joinKey path k) v w = []) →
      compareEntries path t aes = [] := by
  intro t
  induction t using elInd with
  | h0 => intro _; rfl
  | h1 k v t2 ih =>
      intro h
      obtain ⟨w, hw, hcv⟩ := h k v (Or.inl ⟨rfl, rfl⟩)
      have hb : entryBlock path aes k v = [] := by
        rw [entryBlock, hw]
        exact hcv
      rw [compareEntries_cons, hb, ih (fun k' v' hv => h k' v' (Or.inr hv))]
      rfl

theorem extends_empty :
    ∀ (e : ConfigValue) (a : ConfigValue) (path : String),
      wfCV e = true → extendsCV e a = true → compareValues path e a = [] := by
  refine cvStrongInd _ ?_
  intro e IH a path hwf hext
  cases e with
  | null =>
      rw [cv_scalar (by rfl) (by rfl)]
      exact scalar_synEq_empty rfl rfl hext
  | bool b =>
      rw [cv_scalar (by rfl) (by rfl)]
      exact scalar_synEq_empty rfl rfl hext
  | int n =>
      rw [cv_scalar (by rfl) (by rfl)]
      exact scalar_synEq_empty rfl rfl hext
  | str s =>
      rw [cv_scalar (by rfl) (by rfl)]
      exact scalar_synEq_empty rfl rfl hext
  | seq items =>
      rw [extends_nonmap (by rfl)] at hext
      cases a with
      | seq aitems =>
          rw [cv_seq_seq, compareItems_nil_iff]
          refine itemsAllMem_of items (fun x hx => ?_)
          obtain ⟨y, hy, hsy⟩ := synEqVL_mem hext hx
          have hlt : sizeOf x < sizeOf (ConfigValue.seq items) := by
            have := memVL_sizeOf hx
            simp
            omega
          have hq : pyEq x y = true :=
            synEq_pyEq x (wfVL_memVL_value hwf hx) y hsy
          exact pyMem_of_mem hy hq
      | _ => simp_all [synEq]
  | map es =>
      cases a with
      | map aes =>
          rw [cv_map_map]
          refine entries_empty_aux es (fun k v hv => ?_)
          obtain ⟨w, hw, hew⟩ := extendsEL_entryMem hext hv
          have hlt : sizeOf v < sizeOf (ConfigValue.map es) := by
            have := entryMem_sizeOf hv
            simp
            omega
          exact ⟨w, hw, IH v hlt w (joinKey path k)
            (wf_entryMem_value hwf hv) hew⟩
      | _ => rw [extends_map_shape (by rfl)] at hext; exact Bool.noConfusion hext

theorem extendsEL_refl_aux {es : EntryList} :
    ∀ t : EntryList,
      (∀ k v, entryMem k v t → dictGet es k = some v ∧ extendsCV v v = true) →
      extendsEL t es = true := by
  intro t
  induction t using elInd with
  | h0 => intro _; rfl
  | h1 k v t2 ih =>
      intro h
      obtain ⟨hd, he⟩ := h k v (Or.inl ⟨rfl, rfl⟩)
      simp only [extendsEL, Bool.and_eq_true, hd, he]
      exact ⟨trivial, ih (fun k' v' hv => h k' v' (Or.inr hv))⟩

theorem extends_refl :
    ∀ e : ConfigValue, wfCV e = true → extendsCV e e = true := by
  refine cvStrongInd _ ?_
  intro e IH hwf
  cases e with
  | null => rfl
  | bool b => rw [extends_nonmap (by rfl)]; exact synEq_refl _
  | int n => rw [extends_nonmap (by rfl)]; exact synEq_refl _
  | str s => rw [extends_nonmap (by rfl)]; exact synEq_refl _
  | seq items => rw [extends_nonmap (by rfl)]; exact synEq_refl _
  | map es =>
      show extendsEL es es = true
      refine extendsEL_refl_aux es (fun k v hv => ?_)
      have hlt : sizeOf v < sizeOf (ConfigValue.map es) := by
        have := entryMem_sizeOf hv
        simp
        omega
      exact ⟨wf_dictGet hwf hv, IH v hlt (wf_entryMem_value hwf hv)⟩

/-! Invariance of the report under permutation of the actual dict's entries. -/

theorem entryBlock_congr {path k : String} {v : ConfigValue} {a b : EntryList}
    (hg : dictGet a k = dictGet b k) :
    entryBlock path a k v = entryBlock path b k v := by
  rw [entryBlock, entryBlock, hg]

theorem compareEntries_perm {a b : EntryList}
    (hperm : (entriesToList a).Perm (entriesToList b))
    (hna : (keysEL a).Nodup) :
    ∀ (es : EntryList) (path : String),
      compareEntries path es a = compareEntries path es b := by
  intro es
  induction es using elInd with
  | h0 => intro _; rfl
  | h1 k v t ih =>
      intro path
      rw [compareEntries_cons, compareEntries_cons, ih path,
        entryBlock_congr (dictGet_congr_perm hperm hna k)]

/-! The claims. -/

/-- C1, counterexample to the claim as stated: with expected `{"a": "no"}`
and actual `{"a": False}` the comparator returns the empty report, yet the
actual tree does not structurally contain the expected one under the
documented boolean/string coercion (which coerces only the recognized
literals `"true"`/`"false"`): the spec-worded containment predicate rejects
the pair, so "empty iff contains" fails in the right-to-left direction. -/
theorem claim_C1_counterexample :
    compareValues ""
        (ConfigValue.map (EntryList.cons "a" (ConfigValue.str "no") EntryList.nil))
        (ConfigValue.map (EntryList.cons "a" (ConfigValue.bool false) EntryList.nil)) = [] ∧
    specContains
        (ConfigValue.map (EntryList.cons "a" (ConfigValue.str "no") EntryList.nil))
        (ConfigValue.map (EntryList.cons "a" (ConfigValue.bool false) EntryList.nil)) = false :=
  ⟨rfl, rfl⟩

/-- C1 (amended): for every pair of finite ConfigValue trees, the report of
`compare(expected, actual, path)` is empty exactly when `actual` structurally
contains `expected`, where containment uses the coercion the code actually
implements — an expected string compared against a boolean actual counts as
`True` exactly when it lowercases to `"true"` and as `False` otherwise; maps
are checked keywise (extra actual keys allowed), sequences by `==`-membership
of every expected item, and other scalars by Python equality. -/
theorem claim_C1_amended :
    ∀ (path : String) (expected actual : ConfigValue),
      (compareValues path expected actual = [] ↔ codeContains expected actual = true) :=
  fun path e a => compareValues_nil_iff e path a

/-- C2, counterexample to the claim as stated: with expected `{"a": 1}` and
actual the scalar `5`, the claim demands a mismatch at path `"a"` with absent
actual; the code instead emits a single mismatch at the parent path `""`
whose actual field carries the non-dict node `5`. -/
theorem claim_C2_counterexample :
    (compareValues ""
        (ConfigValue.map (EntryList.cons "a" (ConfigValue.int 1) EntryList.nil))
        (ConfigValue.int 5)).map Mismatch.path = [""] ∧
    (compareValues ""
        (ConfigValue.map (EntryList.cons "a" (ConfigValue.int 1) EntryList.nil))
        (ConfigValue.int 5)).map Mismatch.actual = [ConfigValue.int 5] :=
  ⟨rfl, rfl⟩

/-- C2 (amended): when the expected node is a Mapping and the actual node is
also a Mapping, then for every key `k` of expected in insertion order: if
actual lacks `k`, compare emits a Mismatch at `path.k` with absent actual and
the message that the configuration key `path.k` was not found; otherwise it
recurses into `compare(expected[k], actual[k], path.k)` and appends the
result.  When the actual node is not a Mapping, compare instead emits one
Mismatch at the parent path carrying the whole expected Mapping and the
actual node, with a shape message.  In particular, for expected
`{"a": {"b": 1}}` and actual `{"a": {}}` the report is exactly one Mismatch
at `"a.b"` with absent actual. -/
theorem claim_C2_amended :
    (∀ (path : String) (es aes : EntryList),
      compareValues path (ConfigValue.map es) (ConfigValue.map aes) =
        (entriesToList es).flatMap (fun kv =>
          match dictGet aes kv.1 with
          | none =>
              [⟨joinKey path kv.1, kv.2, ConfigValue.null,
                "Configuration key \x27" ++ joinKey path kv.1 ++
                  "\x27 not found in workspace."⟩]
          | some w => compareValues (joinKey path kv.1) kv.2 w)) ∧
    (∀ (path : String) (es : EntryList) (a : ConfigValue), isMap a = false →
      compareValues path (ConfigValue.map es) a =
        [⟨path, ConfigValue.map es, a,
          "Expected a dictionary at \x27" ++ path ++ "\x27, but found " ++
            typeName a ++ "."⟩]) ∧
    compareValues ""
        (ConfigValue.map (EntryList.cons "a"
          (ConfigValue.map (EntryList.cons "b" (ConfigValue.int 1) EntryList.nil))
          EntryList.nil))
        (ConfigValue.map (EntryList.cons "a" (ConfigValue.map EntryList.nil)
          EntryList.nil)) =
      [⟨"a.b", ConfigValue.int 1, ConfigValue.null,
        "Configuration key \x27a.b\x27 not found in workspace."⟩] := by
  refine ⟨?_, ?_, rfl⟩
  · intro path es aes
    rw [cv_map_map, compareEntries_flatMap]
    rfl
  · intro path es a h
    exact cv_map_shape h

/-- C2, witness: the non-Mapping branch of the amended claim at a concrete
input. -/
theorem claim_C2_witness :
    compareValues "x"
        (ConfigValue.map (EntryList.cons "k" ConfigValue.null EntryList.nil))
        (ConfigValue.int 5) =
      [⟨"x",
        ConfigValue.map (EntryList.cons "k" ConfigValue.null EntryList.nil),
        ConfigValue.int 5,
        "Expected a dictionary at \x27x\x27, but found int."⟩] :=
  claim_C2_amended.2.1 "x"
    (EntryList.cons "k" ConfigValue.null EntryList.nil) (ConfigValue.int 5) rfl

/-- C3, counterexample to the claim as stated: with expected
`["x", "y"]` and actual the scalar `5`, the claim demands one Mismatch per
expected item with `expected = item` and absent actual; the code emits a
single Mismatch whose expected field is the whole list and whose actual field
carries the non-list node `5`. -/
theorem claim_C3_counterexample :
    (compareValues ""
        (ConfigValue.seq (ValueList.cons (ConfigValue.str "x")
          (ValueList.cons (ConfigValue.str "y") ValueList.nil)))
        (ConfigValue.int 5)).map Mismatch.actual = [ConfigValue.int 5] ∧
    (compareValues ""
        (ConfigValue.seq (ValueList.cons (ConfigValue.str "x")
          (ValueList.cons (ConfigValue.str "y") ValueList.nil)))
        (ConfigValue.int 5)).map Mismatch.expected =
      [ConfigValue.seq (ValueList.cons (ConfigValue.str "x")
        (ValueList.cons (ConfigValue.str "y") ValueList.nil))] :=
  ⟨rfl, rfl⟩

/-- C3 (amended): when the expected node is a Sequence and the actual node is
also a Sequence, then for every expected item in order, if the actual list
contains no `==`-equal element, compare emits a Mismatch at the parent path
(not an indexed path) with `expected = item` and absent actual; matched items
are never recursively sub-diffed and position is never checked.  When the
actual node is not a Sequence, compare instead emits one Mismatch at the
path carrying the whole expected Sequence and the actual node, with a shape
message.  In particular, `compare({"tags": ["x", "y"]}, {"tags": ["y", "z"]})`
yields exactly one Mismatch at `"tags"` with expected `"x"` and absent
actual. -/
theorem claim_C3_amended :
    (∀ (path : String) (items aitems : ValueList),
      compareValues path (ConfigValue.seq items) (ConfigValue.seq aitems) =
        (itemsToList items).flatMap (fun item =>
          if pyMem item aitems then []
          else
            [⟨path, item, ConfigValue.null,
              "Expected list item \x27" ++ pyStr item ++ "\x27 not found in \x27" ++
                path ++ "\x27."⟩])) ∧
    (∀ (path : String) (items : ValueList) (a : ConfigValue), isSeq a = false →
      compareValues path (ConfigValue.seq items) a =
        [⟨path, ConfigValue.seq items, a,
          "Expected a list at \x27" ++ path ++ "\x27, but found " ++
            typeName a ++ "."⟩]) ∧
    compareValues ""
        (ConfigValue.map (EntryList.cons "tags"
          (ConfigValue.seq (ValueList.cons (ConfigValue.str "x")
            (ValueList.cons (ConfigValue.str "y") ValueList.nil))) EntryList.nil))
        (ConfigValue.map (EntryList.cons "tags"
          (ConfigValue.seq (ValueList.cons (ConfigValue.str "y")
            (ValueList.cons (ConfigValue.str "z") ValueList.nil))) EntryList.nil)) =
      [⟨"tags", ConfigValue.str "x", ConfigValue.null,
        "Expected list item \x27x\x27 not found in \x27tags\x27."⟩] := by
  refine ⟨?_, ?_, rfl⟩
  · intro path items aitems
    rw [cv_seq_seq, compareItems_flatMap]
  · intro path items a h
    exact cv_seq_shape h

/-- C3, witness: the non-Sequence branch of the amended claim at a concrete
input. -/
theorem claim_C3_witness :
    compareValues "t"
        (ConfigValue.seq (ValueList.cons (ConfigValue.str "x") ValueList.nil))
        ConfigValue.null =
      [⟨"t", ConfigValue.seq (ValueList.cons (ConfigValue.str "x") ValueList.nil),
        ConfigValue.null,
        "Expected a list at \x27t\x27, but found NoneType."⟩] :=
  claim_C3_amended.2.1 "t"
    (ValueList.cons (ConfigValue.str "x") ValueList.nil) ConfigValue.null rfl

/-- C4: when the expected node is a string whose lowercase form is `"true"`
or `"false"` and the actual value is a boolean, compare coerces the expected
string to the corresponding boolean (`"true"` to `True`, `"false"` to
`False`) before comparing, and on inequality records the coerced boolean as
the Mismatch's expected field.  In particular
`compare({"enabled": "true"}, {"enabled": True})` yields no mismatch and
`compare({"enabled": "true"}, {"enabled": False})` yields exactly one
Mismatch with expected `True` and actual `False`. -/
theorem claim_C4 :
    (∀ (path s : String) (b eb : Bool),
      (pyLower s = "true" ∧ eb = true) ∨ (pyLower s = "false" ∧ eb = false) →
      compareValues path (ConfigValue.str s) (ConfigValue.bool b) =
        (if b = eb then []
         else
           [⟨path, ConfigValue.bool eb, ConfigValue.bool b,
             "Mismatch in \x27" ++ path ++ "\x27: expected \x27" ++
               pyStr (ConfigValue.bool eb) ++ "\x27, found \x27" ++
               pyStr (ConfigValue.bool b) ++ "\x27."⟩])) ∧
    compareValues ""
        (ConfigValue.map (EntryList.cons "enabled" (ConfigValue.str "true") EntryList.nil))
        (ConfigValue.map (EntryList.cons "enabled" (ConfigValue.bool true) EntryList.nil)) =
      [] ∧
    compareValues ""
        (ConfigValue.map (EntryList.cons "enabled" (ConfigValue.str "true") EntryList.nil))
        (ConfigValue.map (EntryList.cons "enabled" (ConfigValue.bool false) EntryList.nil)) =
      [⟨"enabled", ConfigValue.bool true, ConfigValue.bool false,
        "Mismatch in \x27enabled\x27: expected \x27True\x27, found \x27False\x27."⟩] := by
  refine ⟨?_, rfl, rfl⟩
  intro path s b eb h
  have hstep : compareValues path (ConfigValue.str s) (ConfigValue.bool b) =
      if b != (pyLower s == "true") then
        [⟨path, ConfigValue.bool (pyLower s == "true"), ConfigValue.bool b,
          "Mismatch in \x27" ++ path ++ "\x27: expected \x27" ++
            pyStr (ConfigValue.bool (pyLower s == "true")) ++ "\x27, found \x27" ++
            pyStr (ConfigValue.bool b) ++ "\x27."⟩]
      else [] := rfl
  rcases h with ⟨hs, rfl⟩ | ⟨hs, rfl⟩
  · have he : (pyLower s == "true") = true := by rw [hs]; rfl
    rw [hstep, he]
    cases b <;> rfl
  · have he : (pyLower s == "true") = false := by rw [hs]; rfl
    rw [hstep, he]
    cases b <;> rfl

/-- C4, witness: the coercion rule at the concrete input `"True"` versus
`False`. -/
theorem claim_C4_witness :
    compareValues "p" (ConfigValue.str "True") (ConfigValue.bool false) =
      [⟨"p", ConfigValue.bool true, ConfigValue.bool false,
        "Mismatch in \x27p\x27: expected \x27True\x27, found \x27False\x27."⟩] :=
  claim_C4.1 "p" "True" false true (Or.inl ⟨rfl, rfl⟩)

/-- C5, counterexample to the claim as stated: the claim demands that
expected `"no"` against actual `False` (a boolean actual with an expected
string that is not a recognized truthy/falsy literal) be a direct inequality
and hence one Mismatch; the code coerces every expected string against a
boolean actual, turning `"no"` into `False`, and reports no mismatch. -/
theorem claim_C5_counterexample :
    compareValues ""
        (ConfigValue.map (EntryList.cons "a" (ConfigValue.str "no") EntryList.nil))
        (ConfigValue.map (EntryList.cons "a" (ConfigValue.bool false) EntryList.nil)) =
      [] := rfl

/-- C5 (amended): for a Scalar expected value, the boolean/string rule is the
only coercion, but it fires for every pair of a boolean actual with a string
expected: the string counts as `True` exactly when it lowercases to `"true"`
and as `False` otherwise (so expected `"no"` versus actual `False` yields no
mismatch).  For every other scalar pairing the comparison is direct Python
equality, with exactly one Mismatch on inequality; in particular
`compare({"a": 1}, {"a": "1"})` yields one Mismatch. -/
theorem claim_C5_amended :
    (∀ (path s : String) (ab : Bool),
      compareValues path (ConfigValue.str s) (ConfigValue.bool ab) =
        (if ab = (pyLower s == "true") then []
         else
           [⟨path, ConfigValue.bool (pyLower s == "true"), ConfigValue.bool ab,
             "Mismatch in \x27" ++ path ++ "\x27: expected \x27" ++
               pyStr (ConfigValue.bool (pyLower s == "true")) ++ "\x27, found \x27" ++
               pyStr (ConfigValue.bool ab) ++ "\x27."⟩])) ∧
    (∀ (path : String) (e a : ConfigValue),
      isMap e = false → isSeq e = false →
      (isBool a = true ∧ isStr e = true → False) →
      compareValues path e a =
        (if pyEq a e then []
         else
           [⟨path, e, a,
             "Mismatch in \x27" ++ path ++ "\x27: expected \x27" ++ pyStr e ++
               "\x27, found \x27" ++ pyStr a ++ "\x27."⟩])) ∧
    compareValues ""
        (ConfigValue.map (EntryList.cons "a" (ConfigValue.int 1) EntryList.nil))
        (ConfigValue.map (EntryList.cons "a" (ConfigValue.str "1") EntryList.nil)) =
      [⟨"a", ConfigValue.int 1, ConfigValue.str "1",
        "Mismatch in \x27a\x27: expected \x271\x27, found \x271\x27."⟩] := by
  refine ⟨?_, ?_, rfl⟩
  · intro path s ab
    have hstep : compareValues path (ConfigValue.str s) (ConfigValue.bool ab) =
        if ab != (pyLower s == "true") then
          [⟨path, ConfigValue.bool (pyLower s == "true"), ConfigValue.bool ab,
            "Mismatch in \x27" ++ path ++ "\x27: expected \x27" ++
              pyStr (ConfigValue.bool (pyLower s == "true")) ++ "\x27, found \x27" ++
              pyStr (ConfigValue.bool ab) ++ "\x27."⟩]
        else [] := rfl
    rw [hstep]
    cases ab <;> cases hx : (pyLower s == "true") <;> rfl
  · intro path e a h1 h2 h3
    cases e
    case map es => simp [isMap] at h1
    case seq items => simp [isSeq] at h2
    all_goals cases a <;> first | exact (h3 ⟨rfl, rfl⟩).elim | rfl

/-- C5, witness: the direct-equality branch of the amended claim at the
concrete pair of expected `1` and actual `"1"`. -/
theorem claim_C5_witness :
    compareValues "q" (ConfigValue.int 1) (ConfigValue.str "1") =
      [⟨"q", ConfigValue.int 1, ConfigValue.str "1",
        "Mismatch in \x27q\x27: expected \x271\x27, found \x271\x27."⟩] :=
  claim_C5_amended.2.1 "q" (ConfigValue.int 1) (ConfigValue.str "1") rfl rfl
    (fun h => Bool.noConfusion h.1)

/-- C6, counterexample to the claim as stated: the actual Mappings
`{"x": 1, "y": 2}` and `{"y": 2, "x": 1}` are equal as key-value sets
(Python `==` holds), yet compared against the scalar expected `1` they
produce different reports — the single value Mismatch embeds the actual dict
in its message, which renders the entries in insertion order. -/
theorem claim_C6_counterexample :
    pyEq
        (ConfigValue.map (EntryList.cons "x" (ConfigValue.int 1)
          (EntryList.cons "y" (ConfigValue.int 2) EntryList.nil)))
        (ConfigValue.map (EntryList.cons "y" (ConfigValue.int 2)
          (EntryList.cons "x" (ConfigValue.int 1) EntryList.nil))) = true ∧
    (compareValues "" (ConfigValue.int 1)
        (ConfigValue.map (EntryList.cons "x" (ConfigValue.int 1)
          (EntryList.cons "y" (ConfigValue.int 2) EntryList.nil)))).map
        Mismatch.message ≠
      (compareValues "" (ConfigValue.int 1)
        (ConfigValue.map (EntryList.cons "y" (ConfigValue.int 2)
          (EntryList.cons "x" (ConfigValue.int 1) EntryList.nil)))).map
        Mismatch.message :=
  ⟨rfl, by decide⟩

/-- C6 (amended): when the expected node is a Mapping, the report is the
concatenation, over the expected entries in insertion order, of each key's
mismatch block (depth-first), and it is invariant under any permutation of
the actual Mapping's entries; the actual key order can only surface when a
Mismatch embeds an actual Mapping wholesale (expected a Scalar or Sequence),
through the insertion-ordered rendering in its message. -/
theorem claim_C6_amended :
    (∀ (path : String) (es aes : EntryList),
      compareValues path (ConfigValue.map es) (ConfigValue.map aes) =
        (entriesToList es).flatMap (fun kv => entryBlock path aes kv.1 kv.2)) ∧
    (∀ (path : String) (es a b : EntryList),
      (keysEL a).Nodup → (entriesToList a).Perm (entriesToList b) →
      compareValues path (ConfigValue.map es) (ConfigValue.map a) =
        compareValues path (ConfigValue.map es) (ConfigValue.map b)) := by
  refine ⟨?_, ?_⟩
  · intro path es aes
    rw [cv_map_map, compareEntries_flatMap]
  · intro path es a b hna hperm
    rw [cv_map_map, cv_map_map]
    exact compareEntries_perm hperm hna es path

/-- C6, witness: permutation invariance at a concrete expected Mapping and a
two-entry actual Mapping given in both orders. -/
theorem claim_C6_witness :
    compareValues "p"
        (ConfigValue.map (EntryList.cons "x" (ConfigValue.int 7) EntryList.nil))
        (ConfigValue.map (EntryList.cons "x" (ConfigValue.int 1)
          (EntryList.cons "y" (ConfigValue.int 2) EntryList.nil))) =
      compareValues "p"
        (ConfigValue.map (EntryList.cons "x" (ConfigValue.int 7) EntryList.nil))
        (ConfigValue.map (EntryList.cons "y" (ConfigValue.int 2)
          (EntryList.cons "x" (ConfigValue.int 1) EntryList.nil))) :=
  claim_C6_amended.2 "p"
    (EntryList.cons "x" (ConfigValue.int 7) EntryList.nil)
    (EntryList.cons "x" (ConfigValue.int 1)
      (EntryList.cons "y" (ConfigValue.int 2) EntryList.nil))
    (EntryList.cons "y" (ConfigValue.int 2)
      (EntryList.cons "x" (ConfigValue.int 1) EntryList.nil))
    (by decide)
    (List.Perm.swap ("y", ConfigValue.int 2) ("x", ConfigValue.int 1) [])

/-- C7, counterexample to the claim as stated: for expected
`{"tags": ["x"]}` and actual `{"tags": ["y"]}` the single Mismatch carries an
absent (`None`) actual although its path `"tags"` resolves in the actual
tree (to the list `["y"]`), contradicting "absent exactly when the path or
an ancestor is missing from the actual tree". -/
theorem claim_C7_counterexample :
    compareValues ""
        (ConfigValue.map (EntryList.cons "tags"
          (ConfigValue.seq (ValueList.cons (ConfigValue.str "x") ValueList.nil))
          EntryList.nil))
        (ConfigValue.map (EntryList.cons "tags"
          (ConfigValue.seq (ValueList.cons (ConfigValue.str "y") ValueList.nil))
          EntryList.nil)) =
      [⟨"tags", ConfigValue.str "x", ConfigValue.null,
        "Expected list item \x27x\x27 not found in \x27tags\x27."⟩] ∧
    resolve
        (ConfigValue.map (EntryList.cons "tags"
          (ConfigValue.seq (ValueList.cons (ConfigValue.str "y") ValueList.nil))
          EntryList.nil)) ["tags"] =
      some (ConfigValue.seq (ValueList.cons (ConfigValue.str "y") ValueList.nil)) :=
  ⟨rfl, rfl⟩

/-- C7 (amended): for a well-formed expected tree, every Mismatch points at a
path that exists in the expected tree (witnessed by a segment list resolving
there); a Mismatch whose actual field is not `None` carries exactly the value
its path resolves to in the actual tree; and an absent (`None`) actual means
the path fails to resolve in the actual tree, or resolves to the null value
(which the record cannot distinguish from absence), or the Mismatch is a
list-membership mismatch whose path resolves to a Sequence lacking the
expected item. -/
theorem claim_C7_amended :
    ∀ (path : String) (expected actual : ConfigValue) (m : Mismatch),
      wfCV expected = true → m ∈ compareValues path expected actual →
      ∃ segs w, resolve expected segs = some w ∧ m.path = joinSegs path segs ∧
        (m.actual ≠ ConfigValue.null → resolve actual segs = some m.actual) ∧
        (m.actual = ConfigValue.null →
          resolve actual segs = none ∨
          resolve actual segs = some ConfigValue.null ∨
          ∃ l, resolve actual segs = some (ConfigValue.seq l) ∧
            pyMem m.expected l = false) :=
  fun path e a m hwf hm => compareValues_path_invariant e path a m hwf hm

/-- C7, witness: the amended invariant at the concrete input of expected
`{"a": 1}` against the empty actual Mapping, whose report is one Mismatch at
`"a"` with absent actual. -/
theorem claim_C7_witness :
    ∃ segs w,
      resolve (ConfigValue.map (EntryList.cons "a" (ConfigValue.int 1)
        EntryList.nil)) segs = some w ∧
      (Mismatch.mk "a" (ConfigValue.int 1) ConfigValue.null
        "Configuration key \x27a\x27 not found in workspace.").path =
        joinSegs "" segs ∧
      ((Mismatch.mk "a" (ConfigValue.int 1) ConfigValue.null
          "Configuration key \x27a\x27 not found in workspace.").actual ≠
          ConfigValue.null →
        resolve (ConfigValue.map EntryList.nil) segs =
          some (Mismatch.mk "a" (ConfigValue.int 1) ConfigValue.null
            "Configuration key \x27a\x27 not found in workspace.").actual) ∧
      ((Mismatch.mk "a" (ConfigValue.int 1) ConfigValue.null
          "Configuration key \x27a\x27 not found in workspace.").actual =
          ConfigValue.null →
        resolve (ConfigValue.map EntryList.nil) segs = none ∨
        resolve (ConfigValue.map EntryList.nil) segs = some ConfigValue.null ∨
        ∃ l, resolve (ConfigValue.map EntryList.nil) segs =
            some (ConfigValue.seq l) ∧
          pyMem (Mismatch.mk "a" (ConfigValue.int 1) ConfigValue.null
            "Configuration key \x27a\x27 not found in workspace.").expected l =
            false) :=
  claim_C7_amended ""
    (ConfigValue.map (EntryList.cons "a" (ConfigValue.int 1) EntryList.nil))
    (ConfigValue.map EntryList.nil)
    (Mismatch.mk "a" (ConfigValue.int 1) ConfigValue.null
      "Configuration key \x27a\x27 not found in workspace.")
    rfl (List.mem_singleton.mpr rfl)

/-- C8: on every pair of trees — including every combination of mismatched
shapes at any level — the comparator returns a report normally: the version
with Python's partial dict subscription made error-explicit always returns
`Except.ok` of the ordinary report, never an error. -/
theorem claim_C8 :
    ∀ (path : String) (expected actual : ConfigValue),
      compareValuesE path expected actual =
        Except.ok (compareValues path expected actual) :=
  fun path e a => compareValuesE_ok e path a

/-- C9, counterexample to the claim as stated: actual
`{"l": [{"a": 1, "b": 2}]}` is obtained from expected `{"l": [{"a": 1}]}` by
adding one extra key to a Mapping (one sitting inside a Sequence item) and
alters no existing path, yet the report is not empty: list membership uses
whole-value equality, so the extended dict no longer matches the expected
item. -/
theorem claim_C9_counterexample :
    specExtendsCV
        (ConfigValue.map (EntryList.cons "l"
          (ConfigValue.seq (ValueList.cons
            (ConfigValue.map (EntryList.cons "a" (ConfigValue.int 1) EntryList.nil))
            ValueList.nil)) EntryList.nil))
        (ConfigValue.map (EntryList.cons "l"
          (ConfigValue.seq (ValueList.cons
            (ConfigValue.map (EntryList.cons "a" (ConfigValue.int 1)
              (EntryList.cons "b" (ConfigValue.int 2) EntryList.nil)))
            ValueList.nil)) EntryList.nil)) = true ∧
    (compareValues ""
        (ConfigValue.map (EntryList.cons "l"
          (ConfigValue.seq (ValueList.cons
            (ConfigValue.map (EntryList.cons "a" (ConfigValue.int 1) EntryList.nil))
            ValueList.nil)) EntryList.nil))
        (ConfigValue.map (EntryList.cons "l"
          (ConfigValue.seq (ValueList.cons
            (ConfigValue.map (EntryList.cons "a" (ConfigValue.int 1)
              (EntryList.cons "b" (ConfigValue.int 2) EntryList.nil)))
            ValueList.nil)) EntryList.nil))).length = 1 :=
  ⟨rfl, rfl⟩

/-- C9 (amended): for every well-formed expected tree and every actual
obtained from it by adding extra keys to Mappings reached through Mapping
descent only — Sequences and everything below them must stay identical,
since list membership is whole-value equality — the report is empty; in
particular `compare(expected, expected)` is empty for every well-formed
tree. -/
theorem claim_C9_amended :
    (∀ (path : String) (expected actual : ConfigValue),
      wfCV expected = true → extendsCV expected actual = true →
      compareValues path expected actual = []) ∧
    (∀ (path : String) (expected : ConfigValue),
      wfCV expected = true → compareValues path expected expected = []) :=
  ⟨fun path e a hwf hext => extends_empty e a path hwf hext,
   fun path e hwf => extends_empty e e path hwf (extends_refl e hwf)⟩

/-- C9, witness: both parts of the amended claim at concrete inputs — the
extension `{"a": 1, "b": 2}` of `{"a": 1}`, and reflexivity at
`{"tags": ["x", 3]}`. -/
theorem claim_C9_witness :
    compareValues ""
        (ConfigValue.map (EntryList.cons "a" (ConfigValue.int 1) EntryList.nil))
        (ConfigValue.map (EntryList.cons "a" (ConfigValue.int 1)
          (EntryList.cons "b" (ConfigValue.int 2) EntryList.nil))) = [] ∧
    compareValues "p"
        (ConfigValue.map (EntryList.cons "tags"
          (ConfigValue.seq (ValueList.cons (ConfigValue.str "x")
            (ValueList.cons (ConfigValue.int 3) ValueList.nil))) EntryList.nil))
        (ConfigValue.map (EntryList.cons "tags"
          (ConfigValue.seq (ValueList.cons (ConfigValue.str "x")
            (ValueList.cons (ConfigValue.int 3) ValueList.nil))) EntryList.nil)) =
      [] :=
  ⟨claim_C9_amended.1 ""
      (ConfigValue.map (EntryList.cons "a" (ConfigValue.int 1) EntryList.nil))
      (ConfigValue.map (EntryList.cons "a" (ConfigValue.int 1)
        (EntryList.cons "b" (ConfigValue.int 2) EntryList.nil))) rfl rfl,
   claim_C9_amended.2 "p"
      (ConfigValue.map (EntryList.cons "tags"
        (ConfigValue.seq (ValueList.cons (ConfigValue.str "x")
          (ValueList.cons (ConfigValue.int 3) ValueList.nil))) EntryList.nil)) rfl⟩

/-- C10: the scalar comparison identifies booleans with the numbers 0 and 1
in both directions — at every path, expected `1` against actual `True`,
expected `0` against actual `False`, expected `True` against actual `1` and
expected `False` against actual `0` all produce no Mismatch, because the
embedded Python equality treats `True = 1` and `False = 0`. -/
theorem claim_C10 :
    ∀ path : String,
      compareValues path (ConfigValue.int 1) (ConfigValue.bool true) = [] ∧
      compareValues path (ConfigValue.int 0) (ConfigValue.bool false) = [] ∧
      compareValues path (ConfigValue.bool true) (ConfigValue.int 1) = [] ∧
      compareValues path (ConfigValue.bool false) (ConfigValue.int 0) = [] :=
  fun _ => ⟨rfl, rfl, rfl, rfl⟩
